import Mathlib

/-!
# Verification of the hosts-file line classification and repair engine

A shallow embedding of `updateHosts.py`'s core: the regex grammar
(`patterns`), the classifier (`get_bad_lines`), the repair engine
(`clean_data`), the loopback normalizer (`restore_org_le`) and the
domain-count header reader/writer (`read_nud` / `write_nud`).

Lines are Python strings (they may contain embedded control characters, as
the repository's unit tests exercise); a document is a `List String`.
The Python regexes are compiled with `re.search` and no flags, so:

* `^` matches only at the start of the string;
* `$` matches at the end of the string or just before one final newline;
* `.` matches every character except `'\n'`.

Each regex is translated into an executable Boolean matcher whose structure
mirrors the regex's backtracking search for *some* match.  In-place list
mutation becomes explicit state passing, and a raised exception becomes an
`Option`/flag result.
-/

/-! ## Character classes of the grammar -/

/-- `[a-z0-9-]`, the character class of a plain domain label. -/
def isDomChar (c : Char) : Bool :=
  ('a' ≤ c && c ≤ 'z') || ('0' ≤ c && c ≤ '9') || c == '-'

/-- `[a-z0-9-_]`, the class of an underscore-extended subdomain label. -/
def isDom2Char (c : Char) : Bool :=
  isDomChar c || c == '_'

/-- `[0-9]`. -/
def isDigitChar (c : Char) : Bool :=
  '0' ≤ c && c ≤ '9'

/-- `[\n\r\f\v\x0d\x0a\x0c\x0b]`, the forbidden-control-character class of
the `xhl` pattern (the duplicates collapse to four characters). -/
def isCtrlChar (c : Char) : Bool :=
  c == '\n' || c == '\r' || c == '\x0C' || c == '\x0B'

/-- `[0-9,]`, the class of the count header's numeric field. -/
def isNudChar (c : Char) : Bool :=
  isDigitChar c || c == ','

/-! ## Pieces of the regexes

All matchers below work on the remaining suffix of the scanned line, so the
`$` anchor holds exactly when that suffix is `[]` (end of string) or `['\n']`
(just before one final newline). -/

/-- `.+$`: one or more non-newline characters that reach the `$` position. -/
def dotPlusDollar (cs : List Char) : Bool :=
  let m := cs.takeWhile (fun c => c != '\n')
  !m.isEmpty && (cs.drop m.length == ([] : List Char) || cs.drop m.length == ['\n'])

/-- A match of `[ \t]*#` at the start of the suffix: the line is a comment
(`comment = '[ \t]*#.*'` matches some prefix iff this holds, since `.*`
always matches the empty string). -/
def commentStart : List Char → Bool
  | [] => false
  | c :: rest => c == '#' || ((c == ' ' || c == '\t') && commentStart rest)

/-- `(?=[^ ]{256,})` would hold: at least 256 characters follow here and the
first 256 of them are all different from a space.  The domain patterns open
with the negation of this. -/
def hasRun256 (cs : List Char) : Bool :=
  256 ≤ cs.length && (cs.take 256).all (fun c => c != ' ')

/-- `( |\t|$)` at the start of the suffix. -/
def delimAfter : List Char → Bool
  | [] => true
  | [c] => c == ' ' || c == '\t' || c == '\n'
  | c :: _ :: _ => c == ' ' || c == '\t'

/-- `(?=[0-9]+( |\t|$))` would hold: some run of `n ≥ 1` digits is followed
by a space, a tab or the `$` position.  The final domain label opens with the
negation of this ("the top-level label is not all digits"). -/
def digitLA (cs : List Char) : Bool :=
  let digs := (cs.takeWhile isDigitChar).length
  (List.range digs).any (fun m => delimAfter (cs.drop (m + 1)))

/-- One iteration of `(?:(?!-)[a-z0-9-]{1,63}(?<!-)\.)`: since the label
class excludes `'.'`, the label must consume exactly the run of label
characters before the next dot; `some rest` is the suffix after that dot. -/
def splitLabel (cs : List Char) : Option (List Char) :=
  let seg := cs.takeWhile isDomChar
  if 1 ≤ seg.length && seg.length ≤ 63 && !(seg.head? == some '-') &&
      !(seg.getLast? == some '-') && ((cs.drop seg.length).head? == some '.') then
    some (cs.drop (seg.length + 1))
  else
    none

/-- One iteration of `(?:(?!-)[a-z0-9-_]{1,63}(?<!-)\.)` (the underscore
variant). -/
def splitLabel2 (cs : List Char) : Option (List Char) :=
  let seg := cs.takeWhile isDom2Char
  if 1 ≤ seg.length && seg.length ≤ 63 && !(seg.head? == some '-') &&
      !(seg.getLast? == some '-') && ((cs.drop seg.length).head? == some '.') then
    some (cs.drop (seg.length + 1))
  else
    none

/-- `(?![0-9]+( |\t|$))(?!-)[a-z0-9-]{2,63}(?<!-)` matches at the start of
the suffix (with nothing required after it): some `f ∈ [2, 63]` label
characters, the first and the `f`-th different from `'-'`. -/
def finalExists (cs : List Char) : Bool :=
  let seg := (cs.takeWhile isDomChar).take 63
  !digitLA cs && !(seg.head? == some '-') && (seg.drop 1).any (fun c => c != '-')

/-- `(?:label\.){1,126}` followed by a final label: the label budget counts
the iterations still allowed, and after every consumed label (at least one)
the final label may start. -/
def domAfterLabels : Nat → List Char → Bool
  | 0, _ => false
  | budget + 1, cs =>
    match splitLabel cs with
    | none => false
    | some rest => finalExists rest || domAfterLabels budget rest

/-- The `domain` pattern (`patterns('d')`) matches some prefix of the
suffix. -/
def domExists (cs : List Char) : Bool :=
  !hasRun256 cs && domAfterLabels 126 cs

/-- The octet alternation `25[0-5]|2[0-4][0-9]|[01]?[0-9][0-9]?` matches the
run `seg` exactly. -/
def octetExact (seg : List Char) : Bool :=
  match seg with
  | [a] => isDigitChar a
  | [a, b] => isDigitChar a && isDigitChar b
  | [a, b, c] =>
    (a == '2' && b == '5' && ('0' ≤ c && c ≤ '5')) ||
    (a == '2' && ('0' ≤ b && b ≤ '4') && isDigitChar c) ||
    ((a == '0' || a == '1') && isDigitChar b && isDigitChar c)
  | _ => false

/-- One iteration of `(?:octet\.)`: the digit run before the next dot must
be exactly an octet (octet characters exclude `'.'`, so the consumed run is
forced). -/
def splitOctet (cs : List Char) : Option (List Char) :=
  let seg := cs.takeWhile isDigitChar
  if octetExact seg && ((cs.drop seg.length).head? == some '.') then
    some (cs.drop (seg.length + 1))
  else
    none

/-- The `ipv4` pattern (`patterns('ip4')`) matches some prefix: three
dot-terminated octets, then a final octet, whose shortest form is one digit,
so a leading digit suffices for a prefix match. -/
def ipv4Exists (cs : List Char) : Bool :=
  match splitOctet cs with
  | none => false
  | some r1 =>
    match splitOctet r1 with
    | none => false
    | some r2 =>
      match splitOctet r2 with
      | none => false
      | some r3 =>
        match r3.head? with
        | some c => isDigitChar c
        | none => false

/-- The thirteen platform loopback/multicast lines enumerated as negative
lookaheads inside `patterns('xhl')`. -/
def platformLines : List String :=
  ["127.0.0.1 localhost",
   "127.0.0.1 localhost.localdomain",
   "127.0.0.1 local",
   "255.255.255.255 broadcasthost",
   "::1 localhost",
   "::1 ip6-localhost",
   "::1 ip6-loopback",
   "fe80::1%lo0 localhost",
   "ff00::0 ip6-localnet",
   "ff00::0 ip6-mcastprefix",
   "ff02::1 ip6-allnodes",
   "ff02::2 ip6-allrouters",
   "ff02::3 ip6-allhosts"]

/-- One of the thirteen platform lines matches at the start of the line;
as lookaheads they only constrain a prefix of the line. -/
def platStart (cs : List Char) : Bool :=
  platformLines.any (fun lit => lit.toList.isPrefixOf cs)

/-- `0\.0\.0\.0 (?:domain|ipv4)(?:comment)?` matches at the start of the
line; the trailing optional comment never blocks a match. -/
def canonStart (cs : List Char) : Bool :=
  "0.0.0.0 ".toList.isPrefixOf cs && (domExists (cs.drop 8) || ipv4Exists (cs.drop 8))

/-- First alternative of `xhl`: `.*[\n\r\f\v\x0d\x0a\x0c\x0b].+` up to the
`$` anchor — an embedded control character with non-newline text before it
and nonempty non-newline text after it. -/
def branchA : List Char → Bool
  | [] => false
  | c :: rest => (isCtrlChar c && dotPlusDollar rest) || (c != '\n' && branchA rest)

/-- Second alternative of `xhl`: none of the negative lookaheads (comment,
canonical entry, platform line) fires at the start, and `.+` reaches `$`. -/
def branchB (cs : List Char) : Bool :=
  !commentStart cs && !canonStart cs && !platStart cs && dotPlusDollar cs

/-- `patterns('xhl')` compiled with `re.search` matches the line: the line
is flagged as compromised or non-valid. -/
def xhl (s : String) : Bool :=
  branchA s.toList || branchB s.toList

/-! ## Classifier: `get_bad_lines` -/

/-- `[(i, line) for i, line in enumerate(data) if prog.search(line)]`,
with the enumeration starting at `k`. -/
def get_bad_lines_from (k : Nat) : List String → List (Nat × String)
  | [] => []
  | line :: rest =>
    (if xhl line then [(k, line)] else []) ++ get_bad_lines_from (k + 1) rest

/-- `get_bad_lines(data)`: the `(index, text)` records of the lines the
`xhl` pattern matches, in document order. -/
def get_bad_lines (data : List String) : List (Nat × String) :=
  get_bad_lines_from 0 data

/-! ### Sanity check against `test_updateHosts.py` (`test_1_get_bad_lines`) -/

/-- The document the repository's unit tests build in `setUpClass`. -/
def testData : List String :=
  [" This is # a bad line -0",
   "111.222.333.444 scammers-1.com",
   "\n0.0.222.0 scammers-2.com",
   "# \n111.222.333.444 scammers-3.com",
   "# comment \r\x0C0.444.0.0 scammers-4.com",
   "# \n111.222.333.444 sub_domain.scammers-5.com",
   "0.0.0.0 \n111.222.333.444 scammers-6.com",
   "0.0.0.0 bad-7.007",
   "0.0.0.0 bad-8",
   "0.0.0.0 bad-9.i",
   "0.0.0.0 sub_domain.bad-10.com",
   "127.0.0.1 localhost",
   "127.0.0.1 localhost.localdomain",
   "127.0.0.1 local",
   "::1 localhost",
   "0.0.0.0 0.0.0.0.valid-try-11.net",
   "0.0.0.0 good-12.012com"]

/-- The classifier reproduces the unit test's expected `bad_data`. -/
theorem get_bad_lines_testData :
    get_bad_lines testData =
      [(0, " This is # a bad line -0"),
       (1, "111.222.333.444 scammers-1.com"),
       (2, "\n0.0.222.0 scammers-2.com"),
       (3, "# \n111.222.333.444 scammers-3.com"),
       (4, "# comment \r\x0C0.444.0.0 scammers-4.com"),
       (5, "# \n111.222.333.444 sub_domain.scammers-5.com"),
       (6, "0.0.0.0 \n111.222.333.444 scammers-6.com"),
       (7, "0.0.0.0 bad-7.007"),
       (8, "0.0.0.0 bad-8"),
       (9, "0.0.0.0 bad-9.i"),
       (10, "0.0.0.0 sub_domain.bad-10.com")] := by
  decide

/-! ## Permissive grammar: `ahl` (accepted hosts line)

`ahl = rf'^0\.0\.0\.0 ({domain2}|{ipv4})({comment})?$'` is anchored at both
ends, so after the matched domain the rest of the line must be an optional
comment reaching `$`. -/

/-- `[ \t]*#.*` matches the whole suffix up to `$`. -/
def commentTail : List Char → Bool
  | [] => false
  | c :: rest =>
    if c == '#' then
      let m := rest.takeWhile (fun x => x != '\n')
      rest.drop m.length == ([] : List Char) || rest.drop m.length == ['\n']
    else
      (c == ' ' || c == '\t') && commentTail rest

/-- `({comment})?$` matches the whole suffix. -/
def commentOptDollar (cs : List Char) : Bool :=
  cs == ([] : List Char) || cs == ['\n'] || commentTail cs

/-- The backtracking search for `(?:.+?\.){k,}`: `k` is the number of
repetitions of "one or more non-newline characters, then a literal dot"
still required, and the flag says whether at least one character of the
current repetition's `.+?` has been consumed.  Mid-repetition, a dot may
close the repetition or be consumed as an ordinary character. -/
def repScan : List Char → Nat → Bool → Bool
  | _, 0, false => true
  | [], _, _ => false
  | c :: cs, k, false => c != '\n' && repScan cs k true
  | c :: cs, k, true => (c == '.' && repScan cs (k - 1) false) || (c != '\n' && repScan cs k true)

/-- `(?=(?:.+?\.){k,})` would hold: `k` repetitions fit at the start of the
suffix. -/
def reps (k : Nat) (cs : List Char) : Bool :=
  repScan cs k false

/-- The final label of `domain2` followed by `({comment})?$`: some
`f ∈ [2, 63]` label characters (first and `f`-th not `'-'`, the digits
lookahead not firing), then the optional comment must close the line. -/
def finalComment (cs : List Char) : Bool :=
  let run := (cs.takeWhile isDomChar).length
  !digitLA cs && !(cs.head? == some '-') &&
    (List.range' 2 62).any (fun f =>
      f ≤ run && !((cs.take f).getLast? == some '-') && commentOptDollar (cs.drop f))

/-- `(?:plainlabel\.){1,126}` then the final label and the line's close. -/
def plainsThenFinal : Nat → List Char → Bool
  | 0, _ => false
  | budget + 1, cs =>
    match splitLabel cs with
    | none => false
    | some rest => finalComment rest || plainsThenFinal budget rest

/-- `(?:extlabel\.){0,125}` then `(?:plainlabel\.){1,126}` then the final
label: at every point the search may stop consuming underscore labels and
switch to the mandatory plain labels. -/
def extPlainFinal : Nat → List Char → Bool
  | 0, cs => plainsThenFinal 126 cs
  | budget + 1, cs =>
    plainsThenFinal 126 cs ||
      (match splitLabel2 cs with
       | none => false
       | some rest => extPlainFinal budget rest)

/-- `domain2` (`patterns('d2')`) consumes a prefix after which the line
closes with an optional comment.  Its two leading lookaheads scan the whole
remaining suffix (comment included). -/
def dom2Closes (cs : List Char) : Bool :=
  !hasRun256 cs && !reps 127 cs && extPlainFinal 125 cs

/-- The last octet of `ipv4` followed by `({comment})?$`: the octet consumes
`k ∈ [1, 3]` characters and the rest must close the line. -/
def lastOctetComment (cs : List Char) : Bool :=
  (List.range 3).any (fun m =>
    octetExact (cs.take (m + 1)) && commentOptDollar (cs.drop (m + 1)))

/-- `ipv4` consumes a prefix after which the line closes. -/
def ipv4Closes (cs : List Char) : Bool :=
  match splitOctet cs with
  | none => false
  | some r1 =>
    match splitOctet r1 with
    | none => false
    | some r2 =>
      match splitOctet r2 with
      | none => false
      | some r3 => lastOctetComment r3

/-- `patterns('ahl')` matches the line: an accepted hosts line, i.e. a
`0.0.0.0` redirect whose domain may carry underscores in subdomain labels. -/
def ahl (s : String) : Bool :=
  let cs := s.toList
  "0.0.0.0 ".toList.isPrefixOf cs && (dom2Closes (cs.drop 8) || ipv4Closes (cs.drop 8))

/-! ## Repair engine: `clean_data`

The Python loop walks `bad_data` from its last record to its first
(`for j in reversed(range(len(bad_data)))`), deleting `data[i]` and the
record for every record whose line fails `ahl`.  The embedding processes the
suffix of the record list first — exactly the loop's order — and returns the
final document, the final record list and the number `nr` of deleted
lines. -/

def clean_data : List String → List (Nat × String) → List String × List (Nat × String) × Nat
  | data, [] => (data, [], 0)
  | data, (i, line) :: rest =>
    let s := clean_data data rest
    if ahl line then
      (s.1, (i, line) :: s.2.1, s.2.2)
    else
      (s.1.eraseIdx i, s.2.1, s.2.2 + 1)

/-! ### Sanity check against `test_2_clean_data` -/

/-- The cleaned document the unit test expects, together with the records it
keeps (the code removes a record from `bad_data` only when it deletes the
line). -/
theorem clean_data_testData :
    clean_data testData (get_bad_lines testData) =
      (["0.0.0.0 sub_domain.bad-10.com",
        "127.0.0.1 localhost",
        "127.0.0.1 localhost.localdomain",
        "127.0.0.1 local",
        "::1 localhost",
        "0.0.0.0 0.0.0.0.valid-try-11.net",
        "0.0.0.0 good-12.012com"],
       [(10, "0.0.0.0 sub_domain.bad-10.com")], 10) := by
  decide

/-! ## Normalizer: `restore_org_le`

`data.index(x)` returns the first position of `x` and raises `ValueError`
when `x` is absent; `data.remove(x)` deletes the first occurrence and raises
when absent; `data[i] = v` is `List.set`.  The embedding returns the list
state together with a success flag: on `false` the first component is the
list as it stood when the lookup raised (the caller's list stays mutated,
Python mutates it in place). -/

/-- `list.index(x)`: position of the first occurrence, `none` when absent. -/
def index? (x : String) : List String → Option Nat
  | [] => none
  | a :: rest => if a == x then some 0 else (index? x rest).map (· + 1)

/-- `list.remove(x)`: the list without the first occurrence of `x`, `none`
when `x` is absent. -/
def removeFirst (x : String) : List String → Option (List String)
  | [] => none
  | a :: rest => if a == x then some rest else (removeFirst x rest).map (a :: ·)

/-- The canonical IPv4 localhost line and its multi-alias replacement. -/
def loopback4 : String := "127.0.0.1 localhost"

/-- The multi-alias IPv4 loopback line the normalizer writes. -/
def loopback4Full : String :=
  "127.0.0.1 localhost localhost.localdomain localhost4 localhost4.localdomain4"

/-- The standalone duplicate line the normalizer removes. -/
def loopbackDup : String := "127.0.0.1 localhost.localdomain"

/-- The canonical IPv6 localhost line and its multi-alias replacement. -/
def loopback6 : String := "::1 localhost"

/-- The multi-alias IPv6 loopback line the normalizer writes. -/
def loopback6Full : String :=
  "::1 localhost localhost.localdomain localhost6 localhost6.localdomain6"

/-- `restore_org_le(data)`: rewrite the first `127.0.0.1 localhost` line to
its multi-alias form, remove the first `127.0.0.1 localhost.localdomain`
line, rewrite the first `::1 localhost` line to its multi-alias form.  The
flag is `false` when one of the three lookups raised `ValueError`; the list
component is the state the caller's list is left in either way. -/
def restore_org_le (data : List String) : List String × Bool :=
  match index? loopback4 data with
  | none => (data, false)
  | some i =>
    let d1 := data.set i loopback4Full
    match removeFirst loopbackDup d1 with
    | none => (d1, false)
    | some d2 =>
      match index? loopback6 d2 with
      | none => (d2, false)
      | some j => (d2.set j loopback6Full, true)

/-! ### Sanity check against `test_4_restore_org_le` -/

/-- The normalizer reproduces the unit test's expected `restored_data` when
run on the cleaned document. -/
theorem restore_org_le_testData :
    restore_org_le
      ["0.0.0.0 sub_domain.bad-10.com",
       "127.0.0.1 localhost",
       "127.0.0.1 localhost.localdomain",
       "127.0.0.1 local",
       "::1 localhost",
       "0.0.0.0 0.0.0.0.valid-try-11.net",
       "0.0.0.0 good-12.012com"] =
      (["0.0.0.0 sub_domain.bad-10.com",
        "127.0.0.1 localhost localhost.localdomain localhost4 localhost4.localdomain4",
        "127.0.0.1 local",
        "::1 localhost localhost.localdomain localhost6 localhost6.localdomain6",
        "0.0.0.0 0.0.0.0.valid-try-11.net",
        "0.0.0.0 good-12.012com"], true) := by
  decide

/-! ## Domain counter: `read_nud` and `write_nud`

`nud = r'^# Number of unique domains: ([0-9,]{3,7})$'`.  With `re.search`
the pattern matches a line iff, after peeling one final newline, the line is
the literal prefix `"# Number of unique domains: "` followed by three to
seven characters from `[0-9,]`. -/

/-- The literal prefix of the count header, as characters. -/
def nudPrefix : List Char := "# Number of unique domains: ".toList

/-- Peel the `$`-absorbed final newline: the part of the line a `^...$`
anchored pattern must match entirely. -/
def chompNl (cs : List Char) : List Char :=
  if cs.getLast? == some '\n' then cs.dropLast else cs

/-- `patterns('nud')` matches the line. -/
def nudMatch (s : String) : Bool :=
  let core := chompNl s.toList
  nudPrefix.isPrefixOf core &&
    (let g := core.drop nudPrefix.length
     3 ≤ g.length && g.length ≤ 7 && g.all isNudChar)

/-- `int(re.sub(",", "", group))` for the captured group of a matching
line: strip the commas and read the digits; `none` models the `ValueError`
`int('')` raises when the group is all commas. -/
def parseNud (s : String) : Option Nat :=
  let ds := ((chompNl s.toList).drop nudPrefix.length).filter (fun c => c != ',')
  if ds.isEmpty then none
  else some (ds.foldl (fun a c => 10 * a + (c.toNat - 48)) 0)

/-- `next((s for s in data if prog.search(s)), None)`. -/
def findLine? (p : String → Bool) : List String → Option String
  | [] => none
  | s :: rest => if p s then some s else findLine? p rest

/-- `next(((i, s) for i, s in enumerate(data) if prog.search(s)), (None, None))`. -/
def findIdxLine? (p : String → Bool) : List String → Option (Nat × String)
  | [] => none
  | s :: rest =>
    if p s then some (0, s) else (findIdxLine? p rest).map (fun q => (q.1 + 1, q.2))

/-- `read_nud(data)`: `none` models a raised exception — the `TypeError`
from `line[2:]` when no line matches (`line` is `None`), or the `ValueError`
from `int('')`.  On success the pair is `(nud, line[2:])`. -/
def read_nud (data : List String) : Option (Nat × String) :=
  match findLine? nudMatch data with
  | none => none
  | some line =>
    match parseNud line with
    | none => none
    | some v => some (v, line.drop 2)

/-- Python's `f'{nud:,.0f}'` digit of value `d`. -/
def digitChar : Nat → Char
  | 0 => '0' | 1 => '1' | 2 => '2' | 3 => '3' | 4 => '4'
  | 5 => '5' | 6 => '6' | 7 => '7' | 8 => '8' | _ => '9'

/-- Comma grouping on a least-significant-first digit list: a comma after
every third digit that is followed by more digits. -/
def group3 : List Char → List Char
  | d1 :: d2 :: d3 :: d4 :: rest => d1 :: d2 :: d3 :: ',' :: group3 (d4 :: rest)
  | l => l

/-- Base-10 digits, least significant first, computed with enough fuel to
be structurally recursive (it agrees with `Nat.digits 10`, see
`digitsAux_eq_digits`). -/
def digitsAux : Nat → Nat → List Nat
  | _, 0 => []
  | 0, _ => []
  | fuel + 1, n => n % 10 :: digitsAux fuel (n / 10)

/-- `f'{n:,.0f}'` for a natural number: decimal digits with a comma between
three-digit groups, counted from the right. -/
def fmtNud (n : Nat) : String :=
  if n = 0 then "0"
  else String.mk ((group3 ((digitsAux n n).map digitChar)).reverse)

/-- Does `' [0-9,]{3,7}$'` match here: the suffix after this space is three
to seven `[0-9,]` characters reaching the end of the core. -/
def tailIsNum (rest : List Char) : Bool :=
  3 ≤ rest.length && rest.length ≤ 7 && rest.all isNudChar

/-- `re.sub(r' [0-9,]{3,7}$', repl, core)` on the newline-free core: the
match, when there is one, starts at a space whose whole remaining suffix is
the numeric field, so the replacement text takes the place of everything
from that space on.  Without a match the text is unchanged. -/
def subNudCore (repl : List Char) : List Char → List Char
  | [] => []
  | c :: rest =>
    if c == ' ' && tailIsNum rest then ' ' :: repl
    else c :: subNudCore repl rest

/-- `re.sub(r' [0-9,]{3,7}$', rf' {nud:,.0f}', s)`: the `$` may sit before
one final newline, which the substitution keeps. -/
def subNud (s : String) (repl : String) : String :=
  let cs := s.toList
  if cs.getLast? == some '\n' then
    String.mk (subNudCore repl.toList cs.dropLast ++ ['\n'])
  else
    String.mk (subNudCore repl.toList cs)

/-- `write_nud(data, nud)`: rewrite the numeric field of the first line the
`nud` pattern matches; `none` models the `ValueError` raised when no line
matches. -/
def write_nud (data : List String) (nud : Nat) : Option (List String) :=
  match findIdxLine? nudMatch data with
  | none => none
  | some (i, s) => some (data.set i (subNud s (fmtNud nud)))

/-- Round-trip sanity check: a write of `123456` into a live header is read
back. -/
theorem write_read_nud_concrete :
    write_nud ["# Title", "# Number of unique domains: 99,999", "0.0.0.0 a.com"] 123456 =
      some ["# Title", "# Number of unique domains: 123,456", "0.0.0.0 a.com"] ∧
    read_nud ["# Title", "# Number of unique domains: 123,456", "0.0.0.0 a.com"] =
      some (123456, "Number of unique domains: 123,456") := by
  constructor
  · decide
  · decide

/-! ## Characterizing the classifier -/

/-- Membership in the enumerated filter, with the enumeration offset. -/
theorem mem_gblFrom (data : List String) (k : Nat) (p : Nat × String) :
    p ∈ get_bad_lines_from k data ↔
      ∃ j, data[j]? = some p.2 ∧ xhl p.2 = true ∧ p.1 = k + j := by
  induction data generalizing k with
  | nil =>
    simp [get_bad_lines_from]
  | cons a rest ih =>
    simp only [get_bad_lines_from, List.mem_append]
    cases hx : xhl a with
    | false =>
      rw [if_neg (by simp [hx])]
      simp only [List.not_mem_nil, false_or]
      rw [ih]
      constructor
      · rintro ⟨j, hj, hxl, hp⟩
        exact ⟨j + 1, by simpa using hj, hxl, by omega⟩
      · rintro ⟨j, hj, hxl, hp⟩
        cases j with
        | zero =>
          exfalso
          simp only [List.getElem?_cons_zero, Option.some.injEq] at hj
          rw [← hj, hx] at hxl
          exact Bool.false_ne_true hxl
        | succ j =>
          exact ⟨j, by simpa using hj, hxl, by omega⟩
    | true =>
      rw [if_pos (by simp [hx])]
      simp only [List.mem_singleton]
      rw [ih]
      constructor
      · rintro (hp | ⟨j, hj, hxl, hp⟩)
        · exact ⟨0, by simp [hp, hx], by simp [hp, hx], by simp [hp]⟩
        · exact ⟨j + 1, by simpa using hj, hxl, by omega⟩
      · rintro ⟨j, hj, hxl, hp⟩
        cases j with
        | zero =>
          left
          simp only [List.getElem?_cons_zero, Option.some.injEq] at hj
          obtain ⟨p1, p2⟩ := p
          simp only at hj hp
          simp [← hj, hp]
        | succ j =>
          exact Or.inr ⟨j, by simpa using hj, hxl, by omega⟩

/-- Every record of the suffix enumeration carries an index at least the
offset. -/
theorem gblFrom_le_fst (data : List String) (k : Nat) (p : Nat × String)
    (hp : p ∈ get_bad_lines_from k data) : k ≤ p.1 := by
  rcases (mem_gblFrom data k p).mp hp with ⟨j, _, _, hj⟩
  omega

/-- The classifier's records carry strictly increasing indices. -/
theorem gblFrom_pairwise (data : List String) (k : Nat) :
    ((get_bad_lines_from k data).map Prod.fst).Pairwise (· < ·) := by
  induction data generalizing k with
  | nil => simp [get_bad_lines_from]
  | cons a rest ih =>
    simp only [get_bad_lines_from]
    cases hx : xhl a with
    | false =>
      rw [if_neg (by simp [hx])]
      simpa using ih (k + 1)
    | true =>
      rw [if_pos (by simp [hx])]
      simp only [List.singleton_append, List.map_cons, List.pairwise_cons]
      refine ⟨?_, ih (k + 1)⟩
      intro x hx2
      rcases List.mem_map.mp hx2 with ⟨q, hq, hqx⟩
      have := gblFrom_le_fst rest (k + 1) q hq
      omega

/-- Splitting off the newline-free part: `takeWhile` recovers the
decomposition used by the `$` anchor. -/
theorem takeWhile_nl_split (v t : List Char) (hv : ∀ x ∈ v, x ≠ '\n')
    (ht : t = [] ∨ t = ['\n']) :
    (v ++ t).takeWhile (fun c => c != '\n') = v ∧ (v ++ t).drop v.length = t := by
  induction v with
  | nil =>
    rcases ht with h | h <;> simp [h, List.takeWhile]
  | cons x v ih =>
    have hx : x ≠ '\n' := hv x (List.mem_cons_self x v)
    have hrec := ih (fun y hy => hv y (List.mem_cons_of_mem x hy))
    simp only [List.cons_append, List.takeWhile_cons, List.length_cons, List.drop_succ_cons]
    rw [if_pos (by simpa using hx)]
    exact ⟨by rw [hrec.1], hrec.2⟩

/-- A list splits into its `takeWhile` part and the rest. -/
theorem takeWhile_drop_split (p : Char → Bool) (cs : List Char) :
    cs.takeWhile p ++ cs.drop (cs.takeWhile p).length = cs := by
  induction cs with
  | nil => simp
  | cons a cs ih =>
    by_cases h : p a
    · simp [List.takeWhile_cons, h, ih]
    · simp [List.takeWhile_cons, h]

/-- `.+$` in terms of a decomposition of the suffix. -/
theorem dotPlusDollar_iff (cs : List Char) :
    dotPlusDollar cs = true ↔
      ∃ v t, cs = v ++ t ∧ v ≠ [] ∧ (∀ x ∈ v, x ≠ '\n') ∧ (t = [] ∨ t = ['\n']) := by
  constructor
  · intro h
    simp only [dotPlusDollar, Bool.and_eq_true, Bool.or_eq_true, beq_iff_eq,
      Bool.not_eq_eq_eq_not, Bool.not_true, List.isEmpty_eq_false] at h
    obtain ⟨hne, hdrop⟩ := h
    refine ⟨cs.takeWhile (fun c => c != '\n'),
      cs.drop (cs.takeWhile (fun c => c != '\n')).length,
      (takeWhile_drop_split _ cs).symm, hne, ?_, hdrop⟩
    intro x hx
    have := List.mem_takeWhile_imp hx
    simpa using this
  · rintro ⟨v, t, rfl, hne, hv, ht⟩
    obtain ⟨h1, h2⟩ := takeWhile_nl_split v t hv ht
    simp only [dotPlusDollar, h1, h2, Bool.and_eq_true, Bool.or_eq_true, beq_iff_eq,
      Bool.not_eq_eq_eq_not, Bool.not_true, List.isEmpty_eq_false]
    exact ⟨hne, ht⟩

/-- The first `xhl` alternative in terms of a decomposition of the line. -/
theorem branchA_iff (cs : List Char) :
    branchA cs = true ↔
      ∃ u c rest, cs = u ++ c :: rest ∧ (∀ x ∈ u, x ≠ '\n') ∧ isCtrlChar c = true ∧
        dotPlusDollar rest = true := by
  induction cs with
  | nil =>
    constructor
    · intro h
      exact absurd h (by simp [branchA])
    · rintro ⟨u, c, rest, h, -, -, -⟩
      exact absurd h (by simp)
  | cons a cs ih =>
    simp only [branchA, Bool.or_eq_true, Bool.and_eq_true]
    constructor
    · rintro (⟨hc, hd⟩ | ⟨ha, hrec⟩)
      · exact ⟨[], a, cs, by simp, by simp, hc, hd⟩
      · rcases ih.mp hrec with ⟨u, c, rest, hsplit, hu, hc, hd⟩
        refine ⟨a :: u, c, rest, by simp [hsplit], ?_, hc, hd⟩
        intro x hx
        rcases List.mem_cons.mp hx with h | h
        · subst h
          simpa using ha
        · exact hu x h
    · rintro ⟨u, c, rest, hsplit, hu, hc, hd⟩
      cases u with
      | nil =>
        simp only [List.nil_append, List.cons.injEq] at hsplit
        left
        rw [hsplit.1, hsplit.2]
        exact ⟨hc, hd⟩
      | cons b u =>
        simp only [List.cons_append, List.cons.injEq] at hsplit
        obtain ⟨hab, hcs⟩ := hsplit
        subst hab
        right
        refine ⟨?_, ih.mpr ⟨u, c, rest, hcs,
          fun x hx => hu x (List.mem_cons_of_mem a hx), hc, hd⟩⟩
        have hb := hu a (List.mem_cons_self a u)
        simpa using hb

/-- The flagging condition of the specification, stated declaratively over
the line's characters: either an embedded forbidden control character with
newline-free text before it and nonempty newline-free text after it, or a
nonempty line (up to one final newline) that starts with no comment, no
canonical-entry match and no platform line. -/
def FlaggedSpec (s : String) : Prop :=
  (∃ u c rest, s.toList = u ++ c :: rest ∧ (∀ x ∈ u, x ≠ '\n') ∧ isCtrlChar c = true ∧
     ∃ v t, rest = v ++ t ∧ v ≠ [] ∧ (∀ x ∈ v, x ≠ '\n') ∧ (t = [] ∨ t = ['\n'])) ∨
  ((∃ v t, s.toList = v ++ t ∧ v ≠ [] ∧ (∀ x ∈ v, x ≠ '\n') ∧ (t = [] ∨ t = ['\n'])) ∧
     commentStart s.toList = false ∧ canonStart s.toList = false ∧ platStart s.toList = false)

/-- The compiled `xhl` matcher agrees with the declarative flagging
condition. -/
theorem xhl_iff_flaggedSpec (s : String) : xhl s = true ↔ FlaggedSpec s := by
  rw [xhl, Bool.or_eq_true, branchA_iff]
  unfold FlaggedSpec
  constructor
  · rintro (⟨u, c, rest, h1, h2, h3, h4⟩ | hB)
    · exact Or.inl ⟨u, c, rest, h1, h2, h3, (dotPlusDollar_iff rest).mp h4⟩
    · simp only [branchB, Bool.and_eq_true, Bool.not_eq_true'] at hB
      obtain ⟨⟨⟨h1, h2⟩, h3⟩, h4⟩ := hB
      exact Or.inr ⟨(dotPlusDollar_iff _).mp h4, h1, h2, h3⟩
  · rintro (⟨u, c, rest, h1, h2, h3, h4⟩ | ⟨hd, h1, h2, h3⟩)
    · exact Or.inl ⟨u, c, rest, h1, h2, h3, (dotPlusDollar_iff rest).mpr h4⟩
    · right
      simp only [branchB, Bool.and_eq_true, Bool.not_eq_true']
      exact ⟨⟨⟨h1, h2⟩, h3⟩, (dotPlusDollar_iff _).mpr hd⟩

/-! ## Claim C1: what `get_bad_lines` returns -/

/-- C1 (corrected).  `get_bad_lines` returns, in strictly ascending
original-index order, exactly the `(index, text)` pairs of lines satisfying
the flagging condition: an embedded control character with newline-free text
before it and nonempty newline-free text after it (up to one final newline),
or a nonempty line that starts with no comment match, no canonical-entry
match and no platform-line match.  The classifier is a pure function of the
document, which it does not change. -/
theorem get_bad_lines_spec (data : List String) :
    (∀ i l, (i, l) ∈ get_bad_lines data ↔ data[i]? = some l ∧ FlaggedSpec l) ∧
    ((get_bad_lines data).map Prod.fst).Pairwise (· < ·) := by
  constructor
  · intro i l
    rw [get_bad_lines, mem_gblFrom]
    constructor
    · rintro ⟨j, hj, hx, hij⟩
      simp only at hj hx hij
      have : i = j := by omega
      subst this
      exact ⟨hj, (xhl_iff_flaggedSpec l).mp hx⟩
    · rintro ⟨hget, hfs⟩
      exact ⟨i, hget, (xhl_iff_flaggedSpec l).mpr hfs, by omega⟩
  · exact gblFrom_pairwise data 0

/-- C1's counterexample: the blank line, a line extending a platform line
and a line extending a canonical entry with non-comment junk all fail the
claim's flagging condition ("blank is flagged", "platform lines as exact
strings", "is a canonicalEntry"), yet the code flags none of them. -/
theorem get_bad_lines_cex :
    get_bad_lines ["", "127.0.0.1 localhost is fake", "0.0.0.0 good.com junk here"] = [] := by
  decide

/-! ## Claim C5: embedded control characters -/

/-- C5's counterexample: this line contains an embedded carriage return
(between `a` and `b`), but because of its bare newlines neither `xhl`
alternative can match, so `get_bad_lines` does not flag it. -/
theorem ctrl_line_not_flagged : get_bad_lines ["a\rb\nc\nd"] = [] := by
  decide

/-- C5 (corrected).  Every line of the shape `u ++ c :: (v ++ t)` — a
carriage return, form feed or vertical tab `c` embedded between newline-free
text `u` and nonempty newline-free text `v`, up to one final newline `t` —
is flagged by `get_bad_lines` wherever it stands in the document. -/
theorem ctrl_embedded_flagged (data : List String) (i : Nat) (u v t : List Char) (c : Char)
    (hc : c = '\r' ∨ c = '\x0C' ∨ c = '\x0B') (hu : ∀ x ∈ u, x ≠ '\n')
    (hv : ∀ x ∈ v, x ≠ '\n') (hvne : v ≠ []) (ht : t = [] ∨ t = ['\n'])
    (hdata : data[i]? = some (String.mk (u ++ c :: (v ++ t)))) :
    (i, String.mk (u ++ c :: (v ++ t))) ∈ get_bad_lines data := by
  rw [get_bad_lines, mem_gblFrom]
  refine ⟨i, hdata, ?_, by omega⟩
  rw [xhl, Bool.or_eq_true]
  left
  rw [branchA_iff]
  refine ⟨u, c, v ++ t, rfl, hu, ?_, ?_⟩
  · rcases hc with h | h | h <;> simp [h, isCtrlChar]
  · exact (dotPlusDollar_iff _).mpr ⟨v, t, rfl, hvne, hv, ht⟩

/-- C5's witness: the concrete line `"a\rb"` is flagged. -/
theorem ctrl_embedded_flagged_witness :
    (0, String.mk (['a'] ++ '\r' :: (['b'] ++ []))) ∈
      get_bad_lines [String.mk (['a'] ++ '\r' :: (['b'] ++ []))] :=
  ctrl_embedded_flagged [String.mk (['a'] ++ '\r' :: (['b'] ++ []))] 0 ['a'] ['b'] [] '\r'
    (Or.inl rfl) (by decide) (by decide) (by decide) (Or.inl rfl) (by decide)

/-! ## Characterizing the repair engine -/

/-- Raising the enumeration offset shifts every record index by one. -/
theorem gblFrom_succ (data : List String) (k : Nat) :
    get_bad_lines_from (k + 1) data =
      (get_bad_lines_from k data).map (fun p => (p.1 + 1, p.2)) := by
  induction data generalizing k with
  | nil => rfl
  | cons a rest ih =>
    simp only [get_bad_lines_from, List.map_append]
    cases hx : xhl a with
    | false =>
      rw [if_neg (by simp [hx]), if_neg (by simp [hx])]
      simpa using ih (k + 1)
    | true =>
      rw [if_pos (by simp [hx]), if_pos (by simp [hx])]
      simpa using ih (k + 1)

/-- Filtering on the line commutes with the index shift. -/
theorem filter_shift (bad : List (Nat × String)) (q : Nat × String → Bool)
    (hq : ∀ p : Nat × String, q (p.1 + 1, p.2) = q p) :
    (bad.map (fun p => (p.1 + 1, p.2))).filter q =
      (bad.filter q).map (fun p => (p.1 + 1, p.2)) := by
  induction bad with
  | nil => rfl
  | cons p rest ih =>
    simp only [List.map_cons, List.filter_cons, hq p]
    cases hqp : q p with
    | false => simpa using ih
    | true => simpa using ih

/-- Processing an index-shifted record list on an extended document leaves
the new head line alone and works on the tail as before. -/
theorem clean_data_shift (bad : List (Nat × String)) (a : String) (data : List String) :
    clean_data (a :: data) (bad.map (fun p => (p.1 + 1, p.2))) =
      (a :: (clean_data data bad).1,
       ((clean_data data bad).2.1).map (fun p => (p.1 + 1, p.2)),
       (clean_data data bad).2.2) := by
  induction bad with
  | nil => rfl
  | cons p rest ih =>
    obtain ⟨i, l⟩ := p
    simp only [List.map_cons, clean_data, ih]
    cases hahl : ahl l with
    | false => simp
    | true => simp
/-- Unfolding the classifier over the head line: the records of the tail are
shifted by one. -/
theorem gbl_cons (a : String) (rest : List String) :
    get_bad_lines (a :: rest) =
      (if xhl a then [(0, a)] else []) ++
        (get_bad_lines rest).map (fun p => (p.1 + 1, p.2)) := by
  show get_bad_lines_from 0 (a :: rest) = _
  rw [get_bad_lines_from, gblFrom_succ]
  rfl

/-- One unfolding step of the repair loop. -/
theorem clean_data_cons (data : List String) (i : Nat) (l : String)
    (bad : List (Nat × String)) :
    clean_data data ((i, l) :: bad) =
      if ahl l then
        ((clean_data data bad).1, (i, l) :: (clean_data data bad).2.1,
          (clean_data data bad).2.2)
      else
        ((clean_data data bad).1.eraseIdx i, (clean_data data bad).2.1,
          (clean_data data bad).2.2 + 1) := by
  cases hahl : ahl l <;> simp [clean_data, hahl]

/-- The master characterization of classify-then-repair: on the classifier's
own record list, `clean_data` keeps exactly the lines that are unflagged or
accepted, keeps in `bad_data` exactly the accepted records, and counts the
flagged-and-rejected lines it deleted. -/
theorem clean_gbl_spec (data : List String) :
    clean_data data (get_bad_lines data) =
      (data.filter (fun l => !xhl l || ahl l),
       (get_bad_lines data).filter (fun p => ahl p.2),
       ((get_bad_lines data).filter (fun p => !ahl p.2)).length) := by
  induction data with
  | nil => rfl
  | cons a rest ih =>
    have hfa1 := filter_shift (get_bad_lines rest) (fun p => ahl p.2) (fun p => rfl)
    have hfa2 := filter_shift (get_bad_lines rest) (fun p => !ahl p.2) (fun p => rfl)
    rw [gbl_cons]
    cases hx : xhl a with
    | false =>
      rw [if_neg (by simp), List.nil_append, clean_data_shift, ih,
        List.filter_cons_of_pos (by simp [hx]), hfa1, hfa2]
      simp
    | true =>
      rw [if_pos rfl, List.singleton_append, clean_data_cons, clean_data_shift, ih]
      cases hahl : ahl a with
      | false =>
        rw [if_neg (by simp), List.filter_cons_of_neg (by simp [hx, hahl]),
          List.filter_cons_of_neg (by simp [hahl]),
          List.filter_cons_of_pos (by simp [hahl]), hfa1, hfa2]
        simp
      | true =>
        rw [if_pos rfl, List.filter_cons_of_pos (by simp [hx, hahl]),
          List.filter_cons_of_pos (by simp [hahl]),
          List.filter_cons_of_neg (by simp [hahl]), hfa1, hfa2]
        simp

/-- The number of deleted flagged-and-rejected lines and the number of kept
lines partition the document. -/
theorem gbl_len_split (data : List String) :
    (data.filter (fun l => !xhl l || ahl l)).length +
      ((get_bad_lines data).filter (fun p => !ahl p.2)).length = data.length := by
  induction data with
  | nil => rfl
  | cons a rest ih =>
    have hfa2 := filter_shift (get_bad_lines rest) (fun p => !ahl p.2) (fun p => rfl)
    rw [gbl_cons]
    cases hx : xhl a with
    | false =>
      rw [if_neg (by simp), List.nil_append,
        List.filter_cons_of_pos (by simp [hx]), hfa2]
      simp only [List.length_cons, List.length_map]
      omega
    | true =>
      cases hahl : ahl a with
      | false =>
        rw [if_pos rfl, List.singleton_append,
          List.filter_cons_of_neg (by simp [hx, hahl]),
          List.filter_cons_of_pos (by simp [hahl]), hfa2]
        simp only [List.length_cons, List.length_map]
        omega
      | true =>
        rw [if_pos rfl, List.singleton_append,
          List.filter_cons_of_pos (by simp [hx, hahl]),
          List.filter_cons_of_neg (by simp [hahl]), hfa2]
        simp only [List.length_cons, List.length_map]
        omega

/-- The load-bearing stability property: while the repair loop still has to
process records whose indices all exceed `i0`, positions up to `i0` of the
document are untouched. -/
theorem clean_keeps_left (data : List String) (rest : List (Nat × String)) (i0 : Nat)
    (hgt : ∀ p ∈ rest, i0 < p.1) (j : Nat) (hj : j ≤ i0) :
    (clean_data data rest).1[j]? = data[j]? := by
  induction rest with
  | nil => rfl
  | cons p rest ih =>
    obtain ⟨i, l⟩ := p
    have hi : i0 < i := by simpa using hgt (i, l) (List.mem_cons_self _ _)
    have hrec := ih (fun q hq => hgt q (List.mem_cons_of_mem _ hq))
    rw [clean_data_cons]
    cases hahl : ahl l with
    | false =>
      rw [if_neg (by simp)]
      rw [List.getElem?_eraseIdx_of_lt _ _ _ (by omega)]
      exact hrec
    | true =>
      rw [if_pos rfl]
      exact hrec

/-! ## Claim C3: descending traversal keeps indices valid -/

/-- C3 (confirmed).  When the repair loop reaches the `j`-th classifier
record `(i, text)` — every record after it, all carrying larger indices,
already processed — the document element at position `i` is still `text`,
the line that stood there at classification time. -/
theorem clean_data_index_stable (data : List String) (j : Nat)
    (hj : j < (get_bad_lines data).length) :
    (clean_data data ((get_bad_lines data).drop (j + 1))).1[
        ((get_bad_lines data).get ⟨j, hj⟩).1]? =
      some ((get_bad_lines data).get ⟨j, hj⟩).2 := by
  have hmem : (get_bad_lines data).get ⟨j, hj⟩ ∈ get_bad_lines data :=
    List.get_mem _ _ _
  have hcons : data[((get_bad_lines data).get ⟨j, hj⟩).1]? =
      some ((get_bad_lines data).get ⟨j, hj⟩).2 := by
    obtain ⟨j', hj', hx, hpj⟩ := (mem_gblFrom data 0 _).mp hmem
    have : ((get_bad_lines data).get ⟨j, hj⟩).1 = j' := by omega
    rw [this]
    exact hj'
  have hpw : (get_bad_lines data).Pairwise (fun p q => p.1 < q.1) := by
    have := gblFrom_pairwise data 0
    rwa [List.pairwise_map] at this
  have hgt : ∀ q ∈ (get_bad_lines data).drop (j + 1),
      ((get_bad_lines data).get ⟨j, hj⟩).1 < q.1 := by
    intro q hq
    obtain ⟨k, hk, hqe⟩ := List.mem_iff_getElem.mp hq
    rw [List.getElem_drop] at hqe
    subst hqe
    have hlt : j < j + 1 + k := by omega
    have hjk : j + 1 + k < (get_bad_lines data).length := by
      have := hk
      simp only [List.length_drop] at this
      omega
    have := List.pairwise_iff_getElem.mp hpw j (j + 1 + k) hj hjk hlt
    simpa [List.get_eq_getElem] using this
  rw [clean_keeps_left data _ _ hgt _ (Nat.le_refl _)]
  exact hcons

/-- C3's witness: on a concrete two-line document with one flagged line the
element at the flagged index is intact when its record is processed. -/
theorem clean_data_index_stable_witness :
    (clean_data ["# ok", "0.0.0.0 bad-8"]
        ((get_bad_lines ["# ok", "0.0.0.0 bad-8"]).drop (0 + 1))).1[
        ((get_bad_lines ["# ok", "0.0.0.0 bad-8"]).get ⟨0, by decide⟩).1]? =
      some ((get_bad_lines ["# ok", "0.0.0.0 bad-8"]).get ⟨0, by decide⟩).2 :=
  clean_data_index_stable ["# ok", "0.0.0.0 bad-8"] 0 (by decide)

/-! ## Claim C2: postconditions of classify-then-repair -/

/-- C2 (confirmed).  Running `clean_data` on the classifier's own record
list shrinks the document by exactly the computed deletion count, preserves
the relative order of all kept lines (the result is a sublist of the input),
and leaves only lines that are accepted (`ahl`) or were never flagged
(`xhl` false). -/
theorem clean_data_postconditions (data : List String) :
    (clean_data data (get_bad_lines data)).1.length +
        (clean_data data (get_bad_lines data)).2.2 = data.length ∧
    (clean_data data (get_bad_lines data)).1.Sublist data ∧
    ∀ l ∈ (clean_data data (get_bad_lines data)).1, ahl l = true ∨ xhl l = false := by
  rw [clean_gbl_spec]
  refine ⟨?_, ?_, ?_⟩
  · simpa using gbl_len_split data
  · exact List.filter_sublist data
  · intro l hl
    have hml := (List.mem_filter.mp hl).2
    cases h1 : xhl l with
    | false => exact Or.inr rfl
    | true =>
      left
      simp only [Bool.or_eq_true, Bool.not_eq_true'] at hml
      rcases hml with h | h
      · rw [h1] at h
        exact absurd h (by simp)
      · exact h

/-! ## Claim C4: fate of the flagged records -/

/-- C4's counterexample: `0.0.0.0 a_a.ab.cd` is flagged (underscore label)
and accepted by `ahl`, so its record is *kept* in the flagged list after the
repair — the claim's "the record is dropped from the flagged list … the
flagged list holds no processed records" fails. -/
theorem clean_data_keeps_record_cex :
    clean_data ["0.0.0.0 a_a.ab.cd"] (get_bad_lines ["0.0.0.0 a_a.ab.cd"]) =
      (["0.0.0.0 a_a.ab.cd"], [(0, "0.0.0.0 a_a.ab.cd")], 0) := by
  decide

/-- C4 (corrected).  For the classifier's records: the accepted
(`permissiveEntry`) records are exactly the ones remaining in the flagged
list after repair, and the document retains exactly the lines that are
unflagged or accepted — every flagged line failing `ahl` is deleted. -/
theorem clean_data_record_effects (data : List String) :
    (clean_data data (get_bad_lines data)).2.1 =
      (get_bad_lines data).filter (fun p => ahl p.2) ∧
    (clean_data data (get_bad_lines data)).1 =
      data.filter (fun l => !xhl l || ahl l) := by
  rw [clean_gbl_spec]
  exact ⟨rfl, rfl⟩

/-! ## Claim C9: classify-then-repair is idempotent -/

/-- C9 (confirmed).  After one classify-and-repair pass, a second pass
deletes nothing: every line the classifier still flags passes `ahl`, so the
document and the record list come back unchanged with a deletion count of
zero. -/
theorem clean_data_idempotent (data : List String) :
    clean_data (clean_data data (get_bad_lines data)).1
        (get_bad_lines (clean_data data (get_bad_lines data)).1) =
      ((clean_data data (get_bad_lines data)).1,
       get_bad_lines (clean_data data (get_bad_lines data)).1, 0) := by
  have hd1 : (clean_data data (get_bad_lines data)).1 =
      data.filter (fun l => !xhl l || ahl l) := by
    rw [clean_gbl_spec]
  rw [hd1]
  have hkeep : ∀ l ∈ data.filter (fun l => !xhl l || ahl l), (!xhl l || ahl l) = true :=
    fun l hl => (List.mem_filter.mp hl).2
  have hahl : ∀ p ∈ get_bad_lines (data.filter (fun l => !xhl l || ahl l)),
      ahl p.2 = true := by
    intro p hp
    obtain ⟨j', hj', hx, hpj⟩ := (mem_gblFrom _ 0 p).mp hp
    have hmem := List.getElem?_mem hj'
    have hk := hkeep p.2 hmem
    simp only [Bool.or_eq_true, Bool.not_eq_true'] at hk
    rcases hk with h | h
    · rw [hx] at h
      exact absurd h (by simp)
    · exact h
  rw [clean_gbl_spec]
  have h2 : (get_bad_lines (data.filter (fun l => !xhl l || ahl l))).filter
      (fun p => ahl p.2) = get_bad_lines (data.filter (fun l => !xhl l || ahl l)) :=
    List.filter_eq_self.mpr hahl
  have h3 : (get_bad_lines (data.filter (fun l => !xhl l || ahl l))).filter
      (fun p => !ahl p.2) = [] :=
    List.filter_eq_nil_iff.mpr (fun p hp => by simp [hahl p hp])
  rw [List.filter_eq_self.mpr hkeep, h2, h3]
  rfl

/-! ## Characterizing the normalizer -/

/-- `list.index` misses exactly the absent values. -/
theorem index?_eq_none (x : String) (l : List String) : index? x l = none ↔ x ∉ l := by
  induction l with
  | nil => simp [index?]
  | cons a rest ih =>
    by_cases h : a = x
    · subst h
      simp [index?]
    · simp [index?, h, ih, Ne.symm h]

/-- `list.index` finds the first occurrence: the list splits around `x` with
no earlier occurrence, and the reported position is the prefix length. -/
theorem index?_spec (x : String) (l : List String) (hx : x ∈ l) :
    ∃ A B, l = A ++ x :: B ∧ x ∉ A ∧ index? x l = some A.length := by
  induction l with
  | nil => exact absurd hx (List.not_mem_nil x)
  | cons a rest ih =>
    by_cases h : a = x
    · subst h
      exact ⟨[], rest, rfl, List.not_mem_nil a, by simp [index?]⟩
    · have hxr : x ∈ rest := by
        rcases List.mem_cons.mp hx with h1 | h1
        · exact absurd h1.symm h
        · exact h1
      obtain ⟨A, B, hAB, hnA, hidx⟩ := ih hxr
      refine ⟨a :: A, B, by simp [hAB], ?_, ?_⟩
      · intro hmem
        rcases List.mem_cons.mp hmem with h1 | h1
        · exact h h1.symm
        · exact hnA h1
      · simp [index?, h, hidx]

/-- `list.remove` removes the first occurrence: the list splits around `x`
with no earlier occurrence, and the result is the two parts glued. -/
theorem removeFirst_spec (x : String) (l : List String) (hx : x ∈ l) :
    ∃ A B, l = A ++ x :: B ∧ x ∉ A ∧ removeFirst x l = some (A ++ B) := by
  induction l with
  | nil => exact absurd hx (List.not_mem_nil x)
  | cons a rest ih =>
    by_cases h : a = x
    · subst h
      exact ⟨[], rest, rfl, List.not_mem_nil a, by simp [removeFirst]⟩
    · have hxr : x ∈ rest := by
        rcases List.mem_cons.mp hx with h1 | h1
        · exact absurd h1.symm h
        · exact h1
      obtain ⟨A, B, hAB, hnA, hrem⟩ := ih hxr
      refine ⟨a :: A, B, by simp [hAB], ?_, ?_⟩
      · intro hmem
        rcases List.mem_cons.mp hmem with h1 | h1
        · exact h h1.symm
        · exact hnA h1
      · simp [removeFirst, h, hrem]

/-- A successful `list.remove` only drops elements. -/
theorem removeFirst_subset (x : String) (l l2 : List String)
    (h : removeFirst x l = some l2) : l2 ⊆ l := by
  induction l generalizing l2 with
  | nil => simp [removeFirst] at h
  | cons a rest ih =>
    simp only [removeFirst] at h
    by_cases hax : a = x
    · rw [if_pos (by simp [hax])] at h
      obtain rfl := Option.some.inj h
      exact List.subset_cons_self a rest
    · rw [if_neg (by simp [hax])] at h
      cases hr : removeFirst x rest with
      | none => rw [hr] at h; simp at h
      | some r =>
        rw [hr] at h
        simp only [Option.map_some', Option.some.injEq] at h
        subst h
        intro y hy
        rcases List.mem_cons.mp hy with h1 | h1
        · exact h1 ▸ List.mem_cons_self a rest
        · exact List.mem_cons_of_mem a (ih r hr h1)

/-- Membership after `data[i] = v`: an element of the updated list is the
new value or an old element. -/
theorem mem_of_mem_set (l : List String) (i : Nat) (v y : String)
    (h : y ∈ l.set i v) : y = v ∨ y ∈ l := by
  induction l generalizing i with
  | nil => simp at h
  | cons a rest ih =>
    cases i with
    | zero =>
      rcases List.mem_cons.mp h with h1 | h1
      · exact Or.inl h1
      · exact Or.inr (List.mem_cons_of_mem a h1)
    | succ i =>
      rcases List.mem_cons.mp h with h1 | h1
      · exact Or.inr (h1 ▸ List.mem_cons_self a rest)
      · rcases ih i h1 with h2 | h2
        · exact Or.inl h2
        · exact Or.inr (List.mem_cons_of_mem a h2)

/-- Writing at the split position replaces the split element. -/
theorem set_len_append (A : List String) (x y : String) (B : List String) :
    (A ++ x :: B).set A.length y = A ++ y :: B := by
  induction A with
  | nil => rfl
  | cons a A ih => simp [List.set_cons_succ, ih]

/-- "The first occurrence of `x` in `l` is rewritten in place to `y`, every
other line unchanged in order". -/
def IsFirstReplace (l : List String) (x y : String) (l2 : List String) : Prop :=
  ∃ A B, l = A ++ x :: B ∧ x ∉ A ∧ l2 = A ++ y :: B

/-- "The first occurrence of `x` in `l` is removed, every other line
unchanged in order". -/
def IsFirstRemove (l : List String) (x : String) (l2 : List String) : Prop :=
  ∃ A B, l = A ++ x :: B ∧ x ∉ A ∧ l2 = A ++ B

/-! ## Claim C6: the normalizer's rewrite -/

/-- C6 (confirmed).  On a document containing the three source lines,
`restore_org_le` rewrites the first `127.0.0.1 localhost` in place to the
multi-alias IPv4 form, then removes the first standalone
`127.0.0.1 localhost.localdomain`, then rewrites the first `::1 localhost`
in place to the multi-alias IPv6 form, leaving all other lines unchanged in
order; and it fails (the flag is `false`, modelling the raised error) when
either canonical localhost source line is absent. -/
theorem restore_org_le_spec (data : List String) :
    ((loopback4 ∈ data ∧ loopbackDup ∈ data ∧ loopback6 ∈ data) →
      ∃ d1 d2 d3, IsFirstReplace data loopback4 loopback4Full d1 ∧
        IsFirstRemove d1 loopbackDup d2 ∧
        IsFirstReplace d2 loopback6 loopback6Full d3 ∧
        restore_org_le data = (d3, true)) ∧
    ((loopback4 ∉ data ∨ loopback6 ∉ data) → (restore_org_le data).2 = false) := by
  constructor
  · rintro ⟨h4, hd, h6⟩
    obtain ⟨A, B, hAB, hnA, hidx⟩ := index?_spec loopback4 data h4
    have hset1 : data.set A.length loopback4Full = A ++ loopback4Full :: B := by
      rw [hAB]
      exact set_len_append A loopback4 loopback4Full B
    have hd1 : loopbackDup ∈ A ++ loopback4Full :: B := by
      rw [hAB] at hd
      rcases List.mem_append.mp hd with h1 | h1
      · exact List.mem_append.mpr (Or.inl h1)
      · rcases List.mem_cons.mp h1 with h2 | h2
        · exact absurd h2 (by decide)
        · exact List.mem_append.mpr (Or.inr (List.mem_cons_of_mem _ h2))
    obtain ⟨C, D, hCD, hnC, hrem⟩ := removeFirst_spec loopbackDup _ hd1
    have h62 : loopback6 ∈ C ++ D := by
      have h61 : loopback6 ∈ A ++ loopback4Full :: B := by
        rw [hAB] at h6
        rcases List.mem_append.mp h6 with h1 | h1
        · exact List.mem_append.mpr (Or.inl h1)
        · rcases List.mem_cons.mp h1 with h2 | h2
          · exact absurd h2 (by decide)
          · exact List.mem_append.mpr (Or.inr (List.mem_cons_of_mem _ h2))
      rw [hCD] at h61
      rcases List.mem_append.mp h61 with h1 | h1
      · exact List.mem_append.mpr (Or.inl h1)
      · rcases List.mem_cons.mp h1 with h2 | h2
        · exact absurd h2 (by decide)
        · exact List.mem_append.mpr (Or.inr h2)
    obtain ⟨E, F, hEF, hnE, hidx6⟩ := index?_spec loopback6 _ h62
    have hset3 : (C ++ D).set E.length loopback6Full = E ++ loopback6Full :: F := by
      rw [hEF]
      exact set_len_append E loopback6 loopback6Full F
    refine ⟨A ++ loopback4Full :: B, C ++ D, E ++ loopback6Full :: F,
      ⟨A, B, hAB, hnA, rfl⟩, ⟨C, D, hCD, hnC, rfl⟩, ⟨E, F, hEF, hnE, rfl⟩, ?_⟩
    have hrem' : removeFirst loopbackDup (data.set A.length loopback4Full) =
        some (C ++ D) := by
      rw [hset1]
      exact hrem
    simp only [restore_org_le, hidx, hrem', hidx6, hset3]
  · intro h
    rcases h with h4 | h6
    · simp only [restore_org_le, (index?_eq_none loopback4 data).mpr h4]
    · cases hidx : index? loopback4 data with
      | none =>
        simp only [restore_org_le, hidx]
      | some i =>
        cases hrem : removeFirst loopbackDup (data.set i loopback4Full) with
        | none =>
          simp only [restore_org_le, hidx, hrem]
        | some d2 =>
          have h6d2 : loopback6 ∉ d2 := by
            intro hmem
            have h1 := removeFirst_subset _ _ _ hrem hmem
            rcases mem_of_mem_set data i loopback4Full loopback6 h1 with h2 | h2
            · exact absurd h2 (by decide)
            · exact h6 h2
          simp only [restore_org_le, hidx, hrem,
            (index?_eq_none loopback6 d2).mpr h6d2]

/-! ## Claim C10: the normalizer is not atomic on failure -/

/-- C10 (confirmed).  On a document with the IPv4 localhost line and the
duplicate line but no `::1 localhost`, `restore_org_le` fails — and the
document has already been mutated: the IPv4 line is rewritten and the
duplicate removed before the failing IPv6 lookup. -/
theorem restore_org_le_not_atomic :
    restore_org_le ["127.0.0.1 localhost", "127.0.0.1 localhost.localdomain"] =
      (["127.0.0.1 localhost localhost.localdomain localhost4 localhost4.localdomain4"],
       false) := by
  decide

/-! ## Characterizing the count-header writer and reader -/

/-- The fuelled digit computation agrees with `Nat.digits 10`. -/
theorem digitsAux_eq_digits (fuel n : Nat) (h : n ≤ fuel) :
    digitsAux fuel n = Nat.digits 10 n := by
  induction fuel generalizing n with
  | zero =>
    have hn : n = 0 := Nat.le_zero.mp h
    subst hn
    simp [digitsAux]
  | succ fuel ih =>
    cases n with
    | zero => simp [digitsAux]
    | succ n =>
      have hdiv : (n + 1) / 10 ≤ fuel := by
        have := Nat.div_lt_self (Nat.succ_pos n) (by norm_num : 1 < 10)
        omega
      rw [digitsAux, ih _ hdiv, ← Nat.digits_def' (by norm_num : (1:Nat) < 10) (Nat.succ_pos n)]
      omega

/-- Reading a formatted digit back. -/
theorem digitChar_toNat (d : Nat) (hd : d < 10) : (digitChar d).toNat - 48 = d := by
  interval_cases d <;> decide

/-- Formatted digits are `[0-9,]` characters. -/
theorem isNudChar_digitChar (d : Nat) (hd : d < 10) : isNudChar (digitChar d) = true := by
  interval_cases d <;> decide

/-- Formatted digits are not the comma. -/
theorem digitChar_ne_comma (d : Nat) (hd : d < 10) : ¬digitChar d = ',' := by
  interval_cases d <;> decide

/-- Comma grouping leaves a list of at most three digits alone. -/
theorem group3_short (l : List Char) (h : l.length ≤ 3) : group3 l = l := by
  rcases l with _ | ⟨a, _ | ⟨b, _ | ⟨c, _ | ⟨d, rest⟩⟩⟩⟩
  · rfl
  · rfl
  · rfl
  · rfl
  · exfalso
    simp [List.length_cons] at h

/-- Every character of a comma-grouped list is a comma or one of the
original characters. -/
theorem mem_group3 : ∀ (l : List Char) (c : Char), c ∈ group3 l → c = ',' ∨ c ∈ l
  | [], c, hc => Or.inr hc
  | [a], c, hc => Or.inr hc
  | [a, b], c, hc => Or.inr hc
  | [a, b, d], c, hc => Or.inr hc
  | a :: b :: d :: e :: rest, c, hc => by
    simp only [group3, List.mem_cons] at hc
    rcases hc with h | h | h | h | h
    · exact Or.inr (by simp [h])
    · exact Or.inr (by simp [h])
    · exact Or.inr (by simp [h])
    · exact Or.inl h
    · rcases mem_group3 (e :: rest) c h with h2 | h2
      · exact Or.inl h2
      · exact Or.inr (by simp [List.mem_cons.mp h2])

/-- Dropping the commas of a comma-grouped comma-free list recovers it. -/
theorem group3_filter : ∀ l : List Char, (∀ c ∈ l, ¬c = ',') →
    (group3 l).filter (fun c => c != ',') = l
  | [], _ => rfl
  | [a], h => by simp [group3, h a (by simp)]
  | [a, b], h => by simp [group3, h a (by simp), h b (by simp)]
  | [a, b, d], h => by simp [group3, h a (by simp), h b (by simp), h d (by simp)]
  | a :: b :: d :: e :: rest, h => by
    have hrec := group3_filter (e :: rest) (fun c hc => h c (by simp [List.mem_cons.mp hc]))
    simp only [group3, List.filter_cons]
    rw [if_pos (by simpa using h a (by simp)), if_pos (by simpa using h b (by simp)),
      if_pos (by simpa using h d (by simp)), if_neg (by simp)]
    rw [hrec]

/-- Length of the comma-grouped form of three to six digits: between three
and seven characters. -/
theorem group3_len (l : List Char) (h3 : 3 ≤ l.length) (h6 : l.length ≤ 6) :
    3 ≤ (group3 l).length ∧ (group3 l).length ≤ 7 := by
  rcases l with _ | ⟨a, _ | ⟨b, _ | ⟨c, rest⟩⟩⟩
  · simp at h3
  · simp at h3
  · simp [List.length_cons] at h3
  · cases rest with
    | nil => simp [group3]
    | cons d rest2 =>
      have hshort : group3 (d :: rest2) = d :: rest2 := by
        apply group3_short
        simp only [List.length_cons] at h6 ⊢
        omega
      have : group3 (a :: b :: c :: d :: rest2) = a :: b :: c :: ',' :: group3 (d :: rest2) := rfl
      rw [this, hshort]
      simp only [List.length_cons] at h6 ⊢
      omega

/-- Horner evaluation of the most-significant-first digit characters. -/
theorem foldl_digits (ds : List Nat) (a : Nat) (hd : ∀ d ∈ ds, d < 10) :
    ((ds.map digitChar).reverse).foldl (fun acc c => 10 * acc + (c.toNat - 48)) a =
      a * 10 ^ ds.length + Nat.ofDigits 10 ds := by
  induction ds generalizing a with
  | nil => simp [Nat.ofDigits]
  | cons d rest ih =>
    simp only [List.map_cons, List.reverse_cons, List.foldl_append, List.foldl_cons,
      List.foldl_nil]
    rw [ih _ (fun x hx => hd x (List.mem_cons_of_mem d hx)),
      digitChar_toNat d (hd d (List.mem_cons_self d rest)), Nat.ofDigits_cons,
      List.length_cons, pow_succ]
    ring

/-- The header prefix, character by character. -/
theorem nudPrefix_eq :
    nudPrefix = ['#', ' ', 'N', 'u', 'm', 'b', 'e', 'r', ' ', 'o', 'f', ' ', 'u', 'n',
      'i', 'q', 'u', 'e', ' ', 'd', 'o', 'm', 'a', 'i', 'n', 's', ':', ' '] := by
  decide

/-- `String.mk` and `String.toList` are inverse. -/
theorem toList_mk (l : List Char) : (String.mk l).toList = l := rfl

/-- A line without a final newline is its own core. -/
theorem chompNl_no_nl (cs : List Char) (h : ¬cs.getLast? = some '\n') :
    chompNl cs = cs := by
  rw [chompNl, if_neg (by simpa using h)]

/-- One final newline is peeled. -/
theorem chompNl_nl (cs : List Char) : chompNl (cs ++ ['\n']) = cs := by
  rw [chompNl, if_pos (by simp), List.dropLast_concat]

/-- A suffix opening with a character outside `[0-9,]` is not the numeric
field. -/
theorem tailIsNum_cons_false (c : Char) (l : List Char) (hc : isNudChar c = false) :
    tailIsNum (c :: l) = false := by
  simp [tailIsNum, hc]

/-- The numeric field test, from its parts. -/
theorem tailIsNum_of (g : List Char) (h3 : 3 ≤ g.length) (h7 : g.length ≤ 7)
    (hall : g.all isNudChar = true) : tailIsNum g = true := by
  simp [tailIsNum, h3, h7, hall]

/-- The substitution on a header core: the only match of `' [0-9,]{3,7}$'`
starts at the final space of the literal prefix (each earlier space is
followed by a letter), so the numeric field is replaced wholesale. -/
theorem subNudCore_nudLine (g repl : List Char) (hg : tailIsNum g = true) :
    subNudCore repl (nudPrefix ++ g) = nudPrefix ++ repl := by
  rw [nudPrefix_eq]
  simp +decide [subNudCore, hg, tailIsNum_cons_false, isNudChar, isDigitChar]

/-- A matching line's core splits into the literal prefix and a three-to-
seven character numeric field. -/
theorem nudMatch_decomp (s : String) (h : nudMatch s = true) :
    ∃ g, chompNl s.toList = nudPrefix ++ g ∧ 3 ≤ g.length ∧ g.length ≤ 7 ∧
      g.all isNudChar = true := by
  simp only [nudMatch, Bool.and_eq_true, List.isPrefixOf_iff_prefix,
    decide_eq_true_eq] at h
  obtain ⟨hpre, ⟨h3, h7⟩, hall⟩ := h
  obtain ⟨t, ht⟩ := hpre
  have hdrop : (chompNl s.toList).drop nudPrefix.length = t := by
    rw [← ht]
    exact List.drop_left nudPrefix t
  exact ⟨t, ht.symm, by rwa [hdrop] at h3, by rwa [hdrop] at h7, by rwa [hdrop] at hall⟩

/-- A line built from the literal prefix and a well-formed numeric field
matches the count-header pattern, with or without a final newline. -/
theorem nudMatch_mk (repl : List Char) (h3 : 3 ≤ repl.length) (h7 : repl.length ≤ 7)
    (hall : repl.all isNudChar = true) :
    nudMatch (String.mk (nudPrefix ++ repl)) = true ∧
    nudMatch (String.mk (nudPrefix ++ repl ++ ['\n'])) = true := by
  have hlast : ¬(nudPrefix ++ repl).getLast? = some '\n' := by
    intro hsome
    have hmem := List.mem_of_getLast?_eq_some hsome
    rcases List.mem_append.mp hmem with h | h
    · rw [nudPrefix_eq] at h
      simp at h
    · have := List.all_eq_true.mp hall _ h
      simp [isNudChar, isDigitChar] at this
  constructor
  · rw [nudMatch, toList_mk, chompNl_no_nl _ hlast]
    simp [List.isPrefixOf_iff_prefix, List.drop_left, h3, h7, hall]
  · rw [nudMatch, toList_mk, chompNl_nl]
    simp [List.isPrefixOf_iff_prefix, List.drop_left, h3, h7, hall]

/-- `next(((i, s) ...))` finds the first matching line: the document splits
at it, nothing before it matches, and the reported index is the prefix
length. -/
theorem findIdxLine?_spec (p : String → Bool) (data : List String)
    (hex : ∃ s ∈ data, p s = true) :
    ∃ A s B, data = A ++ s :: B ∧ (∀ x ∈ A, p x = false) ∧ p s = true ∧
      findIdxLine? p data = some (A.length, s) := by
  induction data with
  | nil =>
    obtain ⟨s, hs, _⟩ := hex
    exact absurd hs (List.not_mem_nil s)
  | cons a rest ih =>
    cases hpa : p a with
    | true =>
      exact ⟨[], a, rest, rfl, by simp, hpa, by simp [findIdxLine?, hpa]⟩
    | false =>
      have hex2 : ∃ s ∈ rest, p s = true := by
        obtain ⟨s, hs, hps⟩ := hex
        rcases List.mem_cons.mp hs with h | h
        · subst h
          rw [hpa] at hps
          exact absurd hps (by simp)
        · exact ⟨s, h, hps⟩
      obtain ⟨A, s, B, hAB, hA, hps, hfind⟩ := ih hex2
      refine ⟨a :: A, s, B, by simp [hAB], ?_, hps, ?_⟩
      · intro x hx
        rcases List.mem_cons.mp hx with h | h
        · subst h
          exact hpa
        · exact hA x h
      · simp [findIdxLine?, hpa, hfind]

/-- `next((s ...))` on a document whose first match is known. -/
theorem findLine?_first (p : String → Bool) (A : List String) (s : String)
    (B : List String) (hA : ∀ x ∈ A, p x = false) (hs : p s = true) :
    findLine? p (A ++ s :: B) = some s := by
  induction A with
  | nil => simp [findLine?, hs]
  | cons a A ih =>
    have hpa := hA a (List.mem_cons_self a A)
    simp only [List.cons_append, findLine?, hpa]
    simp only [Bool.false_eq_true, if_false]
    exact ih (fun x hx => hA x (List.mem_cons_of_mem a hx))

/-- A header line made of the prefix and `[0-9,]` characters does not end in
a newline. -/
theorem nud_line_last (repl : List Char) (hall : repl.all isNudChar = true) :
    ¬(nudPrefix ++ repl).getLast? = some '\n' := by
  intro hsome
  have hmem := List.mem_of_getLast?_eq_some hsome
  rcases List.mem_append.mp hmem with h | h
  · rw [nudPrefix_eq] at h
    simp at h
  · have := List.all_eq_true.mp hall _ h
    simp [isNudChar, isDigitChar] at this

/-- `f'{n:,.0f}'` for `100 ≤ n ≤ 999999`: three to seven `[0-9,]`
characters whose comma-stripped digits Horner-evaluate back to `n`. -/
theorem fmtNud_props (n : Nat) (h1 : 100 ≤ n) (h2 : n ≤ 999999) :
    3 ≤ (fmtNud n).toList.length ∧ (fmtNud n).toList.length ≤ 7 ∧
    (fmtNud n).toList.all isNudChar = true ∧
    ¬((fmtNud n).toList.filter (fun c => c != ',')).isEmpty = true ∧
    ((fmtNud n).toList.filter (fun c => c != ',')).foldl
        (fun acc c => 10 * acc + (c.toNat - 48)) 0 = n := by
  have hn0 : n ≠ 0 := by omega
  have hds : ∀ d ∈ Nat.digits 10 n, d < 10 :=
    fun d hd => Nat.digits_lt_base (by norm_num) hd
  have hlen3 : 3 ≤ (Nat.digits 10 n).length := by
    by_contra hcon
    push_neg at hcon
    have hp := Nat.lt_base_pow_length_digits (b := 10) (m := n) (by norm_num)
    have hle : (10 : Nat) ^ (Nat.digits 10 n).length ≤ 10 ^ 2 :=
      Nat.pow_le_pow_right (by norm_num) (by omega)
    have h100 : (10 : Nat) ^ 2 = 100 := by norm_num
    omega
  have hlen6 : (Nat.digits 10 n).length ≤ 6 := by
    have hp := Nat.base_pow_length_digits_le 10 n (by norm_num) hn0
    by_contra hcon
    push_neg at hcon
    have hle : (10 : Nat) ^ 7 ≤ 10 ^ (Nat.digits 10 n).length :=
      Nat.pow_le_pow_right (by norm_num) (by omega)
    have h107 : (10 : Nat) ^ 7 = 10000000 := by norm_num
    omega
  have htl : (fmtNud n).toList = (group3 ((Nat.digits 10 n).map digitChar)).reverse := by
    rw [fmtNud, if_neg hn0, digitsAux_eq_digits n n (Nat.le_refl n), toList_mk]
  have hglen := group3_len ((Nat.digits 10 n).map digitChar)
    (by rw [List.length_map]; omega) (by rw [List.length_map]; omega)
  have hcommafree : ∀ c ∈ (Nat.digits 10 n).map digitChar, ¬c = ',' := by
    intro c hc
    obtain ⟨d, hd, rfl⟩ := List.mem_map.mp hc
    exact digitChar_ne_comma d (hds d hd)
  refine ⟨?_, ?_, ?_, ?_, ?_⟩
  · rw [htl, List.length_reverse]
    exact hglen.1
  · rw [htl, List.length_reverse]
    exact hglen.2
  · rw [htl]
    apply List.all_eq_true.mpr
    intro c hc
    rw [List.mem_reverse] at hc
    rcases mem_group3 _ c hc with h | h
    · subst h
      decide
    · obtain ⟨d, hd, rfl⟩ := List.mem_map.mp h
      exact isNudChar_digitChar d (hds d hd)
  · rw [htl, List.filter_reverse, group3_filter _ hcommafree]
    simp only [List.isEmpty_eq_true, List.reverse_eq_nil_iff, List.map_eq_nil_iff]
    intro hnil
    rw [hnil] at hlen3
    simp at hlen3
  · rw [htl, List.filter_reverse, group3_filter _ hcommafree,
      foldl_digits (Nat.digits 10 n) 0 hds, Nat.ofDigits_digits]
    ring

/-- Reading back a freshly written header line, with or without a final
newline carried over from the original line. -/
theorem read_nud_after_write (A B : List String) (n : Nat) (repl t : List Char)
    (hA : ∀ x ∈ A, nudMatch x = false)
    (h3 : 3 ≤ repl.length) (h7 : repl.length ≤ 7) (hall : repl.all isNudChar = true)
    (hfne : ¬(repl.filter (fun c => c != ',')).isEmpty = true)
    (hfval : (repl.filter (fun c => c != ',')).foldl
        (fun acc c => 10 * acc + (c.toNat - 48)) 0 = n)
    (ht : t = [] ∨ t = ['\n']) :
    ∃ rest, read_nud (A ++ String.mk (nudPrefix ++ repl ++ t) :: B) = some (n, rest) := by
  have hm : nudMatch (String.mk (nudPrefix ++ repl ++ t)) = true := by
    rcases ht with rfl | rfl
    · simpa using (nudMatch_mk repl h3 h7 hall).1
    · exact (nudMatch_mk repl h3 h7 hall).2
  have hfound := findLine?_first nudMatch A _ B hA hm
  have hparse : parseNud (String.mk (nudPrefix ++ repl ++ t)) = some n := by
    rcases ht with rfl | rfl
    · rw [show nudPrefix ++ repl ++ ([] : List Char) = nudPrefix ++ repl from by simp]
      simp only [parseNud, toList_mk, chompNl_no_nl _ (nud_line_last repl hall),
        List.drop_left]
      rw [if_neg (by simpa using hfne), hfval]
    · simp only [parseNud, toList_mk, chompNl_nl, List.drop_left]
      rw [if_neg (by simpa using hfne), hfval]
  refine ⟨(String.mk (nudPrefix ++ repl ++ t)).drop 2, ?_⟩
  simp only [read_nud, hfound, hparse]

/-! ## Claim C7: the count-header round trip -/

/-- C7's counterexample: writing `5` into a live header produces
`# Number of unique domains: 5`, whose one-character field no longer matches
the `[0-9,]{3,7}` pattern, so the following read finds no header line and
raises (modelled by `none`) instead of returning `5`. -/
theorem write_read_nud_cex :
    write_nud ["# Number of unique domains: 123"] 5 =
      some ["# Number of unique domains: 5"] ∧
    read_nud ["# Number of unique domains: 5"] = none := by
  constructor
  · decide
  · decide

/-- C7 (corrected).  For a document with a count-header line and
`100 ≤ n ≤ 999999` — exactly the counts whose comma-grouped form has the
three to seven characters the header grammar admits — writing `n` and then
reading yields `n` back. -/
theorem write_read_nud_roundtrip (data : List String) (n : Nat)
    (h1 : 100 ≤ n) (h2 : n ≤ 999999) (hex : ∃ s ∈ data, nudMatch s = true) :
    ∃ d2 rest, write_nud data n = some d2 ∧ read_nud d2 = some (n, rest) := by
  obtain ⟨A, s, B, hAB, hA, hs, hfind⟩ := findIdxLine?_spec nudMatch data hex
  obtain ⟨g, hcore, hg3, hg7, hgall⟩ := nudMatch_decomp s hs
  obtain ⟨hf3, hf7, hfall, hfne, hfval⟩ := fmtNud_props n h1 h2
  have hwrite : write_nud data n = some (data.set A.length (subNud s (fmtNud n))) := by
    simp only [write_nud, hfind]
  have hset : data.set A.length (subNud s (fmtNud n)) =
      A ++ subNud s (fmtNud n) :: B := by
    rw [hAB]
    exact set_len_append A s (subNud s (fmtNud n)) B
  by_cases hnl : s.toList.getLast? = some '\n'
  · have hnl2 : s.data.getLast? = some '\n' := hnl
    have hcoreP : chompNl s.toList = s.toList.dropLast := by
      rw [chompNl, if_pos (by simp [hnl2])]
    have hdl : s.toList.dropLast = nudPrefix ++ g := by
      rw [← hcoreP]
      exact hcore
    have hsubval : subNud s (fmtNud n) =
        String.mk (nudPrefix ++ (fmtNud n).toList ++ ['\n']) := by
      rw [subNud, if_pos (by simp [hnl2])]
      rw [hdl, subNudCore_nudLine g _ (tailIsNum_of g hg3 hg7 hgall)]
    obtain ⟨rest, hread⟩ := read_nud_after_write A B n (fmtNud n).toList ['\n'] hA
      hf3 hf7 hfall hfne hfval (Or.inr rfl)
    refine ⟨A ++ subNud s (fmtNud n) :: B, rest, by rw [hwrite, hset], ?_⟩
    rw [hsubval]
    exact hread
  · have hnl2 : ¬s.data.getLast? = some '\n' := hnl
    have hdl : s.toList = nudPrefix ++ g := by
      rw [← chompNl_no_nl s.toList hnl]
      exact hcore
    have hsubval : subNud s (fmtNud n) =
        String.mk (nudPrefix ++ (fmtNud n).toList ++ []) := by
      rw [subNud, if_neg (by simp [hnl2])]
      rw [hdl, subNudCore_nudLine g _ (tailIsNum_of g hg3 hg7 hgall)]
      rw [show nudPrefix ++ (fmtNud n).toList ++ ([] : List Char) =
        nudPrefix ++ (fmtNud n).toList from by simp]
    obtain ⟨rest, hread⟩ := read_nud_after_write A B n (fmtNud n).toList [] hA
      hf3 hf7 hfall hfne hfval (Or.inl rfl)
    refine ⟨A ++ subNud s (fmtNud n) :: B, rest, by rw [hwrite, hset], ?_⟩
    rw [hsubval]
    exact hread

/-- C7's witness: writing `654321` into a document with a live header and
reading it back yields `654321`. -/
theorem write_read_nud_roundtrip_witness :
    ∃ d2 rest, write_nud ["# Number of unique domains: 123,456"] 654321 = some d2 ∧
      read_nud d2 = some (654321, rest) :=
  write_read_nud_roundtrip ["# Number of unique domains: 123,456"] 654321
    (by norm_num) (by norm_num)
    ⟨"# Number of unique domains: 123,456", by simp, by decide⟩

/-! ## Claim C8: the missing-header asymmetry -/

/-- C8: on a header-less document the writer raises (modelled by `none`),
as the claim says — but the reader raises too (`line[2:]` with `line` equal
to `None`), where the claim and `main`'s own `line is None` check expect an
absent count to be returned. -/
theorem read_write_nud_no_header :
    read_nud ["# some comment", "0.0.0.0 a.com"] = none ∧
    write_nud ["# some comment", "0.0.0.0 a.com"] 500 = none := by
  constructor
  · decide
  · decide
